import Mathlib

/-!
Verification of the weekly ticket-trend dashboard (src/app.py).

The embedding models the dashboard's aggregation pipeline:
  - timestamps are natural numbers: seconds since 1970-01-01 00:00:00
    (records on or after 1970; pandas timestamps in the data are day/time
    stamps and the pipeline only ever uses their order and calendar week);
  - calendar days are absolute day numbers counted from 0000-01-01 of the
    proleptic Gregorian calendar, so day 719528 is 1970-01-01;
  - pandas dt.isocalendar() is modelled by isocal: the ISO-8601 week-date
    (ISO year of the Thursday of the stamp's Monday-anchored week, week
    number from that Thursday's day-of-year);
  - the week label str(year) + "-W" + str(week).zfill(2) (app.py line 42)
    is modelled by isoLabel via decimal digit rendering;
  - pd.date_range(min, max, freq="W-MON") (app.py line 46) rolls the start
    forward to the next Monday (keeping the clock time) and steps by 7 days
    while not exceeding the end;
  - pd.to_datetime(label + "-1", "%G-W%V-%u") (app.py line 104) is
    modelled by weekToDate: parse the label and take the Monday of that
    ISO week, exactly as datetime.fromisocalendar does (Monday of the week
    of January 4, plus 7 days per further week);
  - Python sorted() on strings is sorting by the lexicographic code-point
    order, modelled by insertionSort with pyLe (any comparison sort agrees
    on how it orders distinct keys, and duplicates are removed first);
  - DataFrame.sort_values(by=[week_sort, assigned_to]) (app.py line 107)
    has a unique answer because the keys in the full grid are distinct;
    it is modelled by insertionSort with cellLE;
  - Series.sort_values(ascending=False) (app.py line 120) computes an
    ascending argsort and reverses it (pandas nargsort), modelled by a
    stable ascending insertion sort followed by List.reverse;
  - pandas .unique() followed by sorted() is modelled by List.dedup
    followed by the sort: the result is the same sorted duplicate-free
    list whichever occurrence dedup keeps;
  - pd.date_range raises ValueError when an endpoint is NaT (the
    empty-data case), modelled by Option: none is the raised error.
-/

/-! ## Proleptic Gregorian calendar arithmetic -/

/-- Gregorian leap-year predicate. -/
def isLeap (y : Nat) : Bool := y % 4 == 0 && (y % 100 != 0 || y % 400 == 0)

/-- Number of days in year y. -/
def daysInYear (y : Nat) : Nat := if isLeap y then 366 else 365

/-- Absolute day number of January 1 of year y: days from 0000-01-01. -/
def Y0 (y : Nat) : Nat := 365 * y + (y + 3) / 4 + (y + 399) / 400 - (y + 99) / 100

/-- Largest year yr at most n with Y0 yr at most d (0 if none). -/
def yearOfAux : Nat → Nat → Nat
  | 0, _ => 0
  | n + 1, d => if Y0 (n + 1) ≤ d then n + 1 else yearOfAux n d

/-- Calendar year containing absolute day d. -/
def yearOf (d : Nat) : Nat := yearOfAux (d / 365 + 1) d

/-- ISO weekday of absolute day a: 1 = Monday .. 7 = Sunday.
    Day 0 (0000-01-01 proleptic Gregorian) is a Saturday. -/
def wdAbs (a : Nat) : Nat := (a + 5) % 7 + 1

/-- Absolute day of the Thursday of the Monday-anchored week containing a. -/
def isoThursday (a : Nat) : Nat := a + 4 - wdAbs a

/-- ISO week-date determined by the Thursday th of a week: the ISO year is
    the calendar year of th, the week number counts Thursdays so far. -/
def isoOfThursday (th : Nat) : Nat × Nat := (yearOf th, (th - Y0 (yearOf th)) / 7 + 1)

/-- ISO-8601 (year, week) of absolute day a, as dt.isocalendar() computes. -/
def isocal (a : Nat) : Nat × Nat := isoOfThursday (isoThursday a)

/-- Absolute day of the first Thursday of year y. -/
def firstThursday (y : Nat) : Nat := Y0 y + (11 - wdAbs (Y0 y)) % 7

/-- Absolute day of the Monday of ISO week w of ISO year y, as
    datetime.fromisocalendar (and strptime with %G-W%V-%u) computes it:
    Monday of the week of January 4, plus seven days per further week. -/
def isoWeekMonday (y w : Nat) : Nat :=
  let j4 := Y0 y + 3
  (j4 - (wdAbs j4 - 1)) + 7 * (w - 1)

/-! ## Decimal rendering and parsing of week labels -/

/-- Decimal digit character. -/
def digitChar : Nat → Char
  | 0 => '0' | 1 => '1' | 2 => '2' | 3 => '3' | 4 => '4'
  | 5 => '5' | 6 => '6' | 7 => '7' | 8 => '8' | _ => '9'

/-- Decimal rendering helper, structurally recursive on a fuel bound so
    that it evaluates inside the kernel. -/
def digitCharsAux : Nat → Nat → List Char
  | 0, _ => []
  | f + 1, n => if n < 10 then [digitChar n] else digitCharsAux f (n / 10) ++ [digitChar (n % 10)]

/-- Decimal rendering of a natural number, most significant digit first. -/
def digitChars (n : Nat) : List Char := digitCharsAux (n + 1) n

/-- Week number rendering str(w).zfill(2): zero-padded to two digits. -/
def pad2 (w : Nat) : List Char := if w < 10 then '0' :: digitChars w else digitChars w

/-- Week label str(year) + "-W" + str(week).zfill(2) (app.py line 42). -/
def isoLabel (y w : Nat) : String := ⟨digitChars y ++ '-' :: 'W' :: pad2 w⟩

/-- Value of a decimal digit string. -/
def parseDigits (l : List Char) : Nat := l.foldl (fun a c => 10 * a + (c.toNat - 48)) 0

/-- Recover (year, week) from a label "YYYY-Www" (strptime %G-W%V). -/
def parseLabel (s : String) : Nat × Nat :=
  let ys := s.data.takeWhile (fun c => !(c == '-'))
  (parseDigits ys, parseDigits (s.data.drop (ys.length + 2)))

/-- Monday of the ISO week a label denotes, as the week_to_date mapping of
    app.py line 104 computes via strptime("%G-W%V-%u"). -/
def weekToDate (s : String) : Nat := isoWeekMonday (parseLabel s).1 (parseLabel s).2

/-! ## String order (Python sorted() compares code points) -/

/-- Python string comparison: lexicographic on code points. -/
def pyLt (s t : String) : Prop := s.data < t.data

/-- Python string comparison, non-strict. -/
def pyLe (s t : String) : Prop := s.data ≤ t.data

instance : DecidableRel pyLt := fun s t => inferInstanceAs (Decidable (s.data < t.data))

instance : DecidableRel pyLe := fun s t => inferInstanceAs (Decidable (s.data ≤ t.data))

instance : IsTotal String pyLe := ⟨fun a b => le_total a.data b.data⟩

instance : IsTrans String pyLe := ⟨fun _ _ _ h1 h2 => le_trans h1 h2⟩

instance : IsAntisymm String pyLe :=
  ⟨fun a b h1 h2 => by cases a; cases b; exact congrArg String.mk (le_antisymm h1 h2)⟩

/-- Sorted ascending by code points: Python sorted() on strings. -/
def sortedStrings (l : List String) : List String := List.insertionSort pyLe l

/-! ## Timestamps and record normalization -/

/-- Absolute day number of a timestamp (seconds since 1970-01-01). -/
def dayOfTs (t : Nat) : Nat := t / 86400 + 719528

/-- Week label of a timestamp: the isocalendar year/week rendering of
    app.py lines 40-42. -/
def tsWeekLabel (t : Nat) : String :=
  isoLabel (isocal (dayOfTs t)).1 (isocal (dayOfTs t)).2

/-- Raw input row after column projection (app.py lines 25-26): nullable
    assigned_to and assignment_group, opened_at as parsed by pd.to_datetime
    with errors="coerce" (none = NaT), plus the source label. -/
structure RawRecord where
  assigned_to : Option String
  assignment_group : Option String
  opened_at : Option Nat
  source : String
deriving DecidableEq

/-- Normalized record (app.py lines 33-37): sentinels substituted, valid
    timestamp. -/
structure Row where
  assigned_to : String
  assignment_group : String
  opened_at : Nat
  source : String
deriving DecidableEq

/-- Normalization (app.py lines 33-37): fill missing assigned_to with
    "Unassigned", missing assignment_group with "Unknown", drop rows whose
    opened_at failed to parse. -/
def normalizeRecords (raw : List RawRecord) : List Row :=
  raw.filterMap (fun r => r.opened_at.map (fun t =>
    ⟨r.assigned_to.getD "Unassigned", r.assignment_group.getD "Unknown", t, r.source⟩))

/-- Week label column of a normalized row (app.py line 42). -/
def rowWeekLabel (r : Row) : String := tsWeekLabel r.opened_at

/-- Minimum opened_at (pandas Series.min: NaT, i.e. none, when empty). -/
def minOpened (rows : List Row) : Option Nat :=
  match rows with
  | [] => none
  | r :: rs => some (rs.foldl (fun m r' => Nat.min m r'.opened_at) r.opened_at)

/-- Maximum opened_at (pandas Series.max: NaT, i.e. none, when empty). -/
def maxOpened (rows : List Row) : Option Nat :=
  match rows with
  | [] => none
  | r :: rs => some (rs.foldl (fun m r' => Nat.max m r'.opened_at) r.opened_at)

/-! ## Calendar completer (app.py lines 46-48) -/

/-- Roll a timestamp forward to the next Monday, keeping the clock time;
    a timestamp already on a Monday is unchanged (pandas Week(weekday=0)
    offset rolling used by date_range). -/
def rollForwardMonday (t : Nat) : Nat :=
  if wdAbs (dayOfTs t) = 1 then t else t + (8 - wdAbs (dayOfTs t)) * 86400

/-- Arithmetic sequence of n timestamps stepping by 7 days from s. -/
def wmonRange (s n : Nat) : List Nat := (List.range n).map (fun k => s + 604800 * k)

/-- pd.date_range(start, end, freq="W-MON"): Mondays (at the start's clock
    time) from the rolled-forward start up to the end, possibly empty. -/
def dateRangeWMON (s e : Nat) : List Nat :=
  if rollForwardMonday s ≤ e then
    wmonRange (rollForwardMonday s) ((e - rollForwardMonday s) / 604800 + 1)
  else []

/-- Week labels of the date_range stamps (app.py line 47); none models the
    ValueError that pd.date_range raises on NaT endpoints (empty data). -/
def allWeekLabelsM (rows : List Row) : Option (List String) :=
  match minOpened rows, maxOpened rows with
  | some a, some b => some ((dateRangeWMON a b).map tsWeekLabel)
  | _, _ => none

/-- sorted(all_week_labels.unique()) (app.py line 48). -/
def uniqueWeeksM (rows : List Row) : Option (List String) :=
  (allWeekLabelsM rows).map (fun ls => sortedStrings ls.dedup)

/-- sorted(combined_df["assigned_to"].unique()) (app.py line 49). -/
def uniquePeople (rows : List Row) : List String :=
  sortedStrings (rows.map (·.assigned_to)).dedup

/-- sorted(combined_df["assignment_group"].unique()) (app.py line 45). -/
def assignmentGroups (rows : List Row) : List String :=
  sortedStrings (rows.map (·.assignment_group)).dedup

/-! ## Filter gate and aggregator (app.py lines 89-107) -/

/-- The filter gate (app.py lines 91-92): Python "if selected_group:" is
    false for None and for the empty string, so only a non-empty selection
    filters, by exact equality on assignment_group. -/
def applyFilter (rows : List Row) (sel : Option String) : List Row :=
  match sel with
  | none => rows
  | some g => if g = "" then rows else rows.filter (fun r => r.assignment_group == g)

/-- Count of filtered rows in a (week label, assignee) cell: the value the
    groupby size / reindex fill_value=0 combination produces for a pair of
    the full grid (app.py lines 94-101). -/
def countIn (df : List Row) (w p : String) : Nat :=
  df.countP (fun r => rowWeekLabel r == w && r.assigned_to == p)

/-- Row of the dense filled table (app.py line 101 and 106): week label,
    assignee, count, and the week_sort Monday used for ordering. -/
structure Cell where
  week_label : String
  assigned_to : String
  count : Nat
  week_sort : Nat
deriving DecidableEq

/-- Projection of a cell to its axis components (everything but the
    count). -/
def cellKey (c : Cell) : String × String × Nat := (c.week_label, c.assigned_to, c.week_sort)

/-- Sort key order of app.py line 107: by week_sort then assigned_to. -/
def cellLE (c d : Cell) : Prop :=
  c.week_sort < d.week_sort ∨ (c.week_sort = d.week_sort ∧ pyLe c.assigned_to d.assigned_to)

instance : DecidableRel cellLE := fun c d => by unfold cellLE; infer_instance

instance : IsTotal Cell cellLE := by
  constructor
  intro a b
  rcases Nat.lt_trichotomy a.week_sort b.week_sort with h | h | h
  · exact Or.inl (Or.inl h)
  · rcases total_of pyLe a.assigned_to b.assigned_to with h2 | h2
    · exact Or.inl (Or.inr ⟨h, h2⟩)
    · exact Or.inr (Or.inr ⟨h.symm, h2⟩)
  · exact Or.inr (Or.inl h)

instance : IsTrans Cell cellLE := by
  constructor
  intro a b c hab hbc
  rcases hab with h1 | ⟨h1, h1'⟩ <;> rcases hbc with h2 | ⟨h2, h2'⟩
  · exact Or.inl (h1.trans h2)
  · exact Or.inl (by rw [← h2]; exact h1)
  · exact Or.inl (by rw [h1]; exact h2)
  · exact Or.inr ⟨h1.trans h2, trans_of pyLe h1' h2'⟩

/-- The same key order on the cellKey triples. -/
def keyLE (a b : String × String × Nat) : Prop :=
  a.2.2 < b.2.2 ∨ (a.2.2 = b.2.2 ∧ pyLe a.2.1 b.2.1)

instance : DecidableRel keyLE := fun a b => by unfold keyLE; infer_instance

/-- MultiIndex.from_product(unique_weeks, unique_people) (app.py line 100):
    all (week, person) pairs, week-major. -/
def fullIndex : List String → List String → List (String × String)
  | [], _ => []
  | w :: ws, ps => ps.map (fun p => (w, p)) ++ fullIndex ws ps

/-- The filled, sorted table of app.py lines 94-107: one cell per pair of
    the full grid, carrying the filtered count (0 when absent), sorted by
    (week_sort, assigned_to). -/
def updateChart (rows : List Row) (ws ps : List String) (sel : Option String) : List Cell :=
  let df := applyFilter rows sel
  List.insertionSort cellLE
    ((fullIndex ws ps).map (fun wp => ⟨wp.1, wp.2, countIn df wp.1 wp.2, weekToDate wp.1⟩))

/-- End-to-end pipeline for one filter selection: normalize, compute the
    axes (none = the ValueError pandas raises on empty data), aggregate. -/
def pipeline (raw : List RawRecord) (sel : Option String) : Option (List Cell) :=
  let rows := normalizeRecords raw
  (uniqueWeeksM rows).map (fun ws => updateChart rows ws (uniquePeople rows) sel)

/-! ## Series orderer (app.py lines 116-125) -/

/-- Sum of all counts of the table. -/
def cellsSum (tbl : List Cell) : Nat := (tbl.map (·.count)).sum

/-- Total count of one assignee over the filled table (groupby sum,
    app.py lines 117-119). -/
def personTotal (tbl : List Cell) (p : String) : Nat :=
  ((tbl.filter (fun c => c.assigned_to == p)).map (·.count)).sum

/-- Series.sort_values(ascending=False).index (app.py lines 117-122):
    pandas nargsort reverses the values and positions BEFORE the argsort
    and reverses the indexer AFTER it, so a descending sort is stable
    (pandas GH 6399, routed through Series.sort_values since 1.2,
    GH 35922): totals descending, ties keeping the original order of the
    grouped index, which is ascending.  Modelled as the stable insertion
    sort under the descending total order. -/
def totalsOrder (tbl : List Cell) (ps : List String) : List String :=
  List.insertionSort (fun a b => personTotal tbl b ≤ personTotal tbl a) ps

/-- Cells of one assignee's trace, in table order (app.py line 125). -/
def personSeries (tbl : List Cell) (p : String) : List Cell :=
  tbl.filter (fun c => c.assigned_to == p)

/-! ## Auxiliary notions used by the claims -/

/-- Strict chronological order on ISO (year, week) pairs. -/
def lexLT (p q : Nat × Nat) : Prop := p.1 < q.1 ∨ (p.1 = q.1 ∧ p.2 < q.2)

instance : DecidableRel lexLT := fun p q => by unfold lexLT; infer_instance

/-- Days from January 1 to the first of month m (1-12). -/
def daysBeforeMonth (leap : Bool) (m : Nat) : Nat :=
  (match m with
   | 1 => 0 | 2 => 31 | 3 => 59 | 4 => 90 | 5 => 120 | 6 => 151
   | 7 => 181 | 8 => 212 | 9 => 243 | 10 => 273 | 11 => 304 | _ => 334)
  + (if leap && decide (3 ≤ m) then 1 else 0)

/-- Absolute day number of the civil date y-m-d. -/
def civilAbsDay (y m d : Nat) : Nat := Y0 y + daysBeforeMonth (isLeap y) m + (d - 1)

/-- Timestamp (midnight) of the civil date y-m-d, for y at least 1970. -/
def tsOfDate (y m d : Nat) : Nat := (civilAbsDay y m d - 719528) * 86400

/-! ## Concrete datasets used as witnesses and counterexamples -/

/-- The scenario of spec section 8: A opened 2024-01-03, B opened
    2024-01-17. -/
def specRaw : List RawRecord :=
  [⟨some "A", some "X", some (tsOfDate 2024 1 3), "Incident"⟩,
   ⟨some "B", some "Y", some (tsOfDate 2024 1 17), "Task"⟩]

/-- Two assignees with equal totals in one week (Monday 2024-01-08). -/
def tieRaw : List RawRecord :=
  [⟨some "A", some "X", some (tsOfDate 2024 1 8), "Incident"⟩,
   ⟨some "B", some "X", some (tsOfDate 2024 1 8), "Task"⟩]

/-- One assignee with activity on Mondays across the 2024/2025 year
    boundary. -/
def yearBoundaryRaw : List RawRecord :=
  [⟨some "A", some "X", some (tsOfDate 2024 12 23), "Incident"⟩,
   ⟨some "A", some "X", some (tsOfDate 2025 1 6), "Task"⟩]

/-- A single record on a Wednesday (2024-01-03). -/
def lonelyWednesdayRaw : List RawRecord :=
  [⟨some "A", some "X", some (tsOfDate 2024 1 3), "Incident"⟩]

/-- A single record on a Monday (2024-01-08). -/
def mondayRaw : List RawRecord :=
  [⟨some "A", some "X", some (tsOfDate 2024 1 8), "Incident"⟩]

/-- A single record whose timestamp failed to parse (NaT). -/
def invalidRaw : List RawRecord := [⟨some "A", some "X", none, "Incident"⟩]

/-! # Theorems -/

/-! ## Calendar lemmas -/

theorem Y0_zero : Y0 0 = 0 := by unfold Y0; omega

theorem Y0_ge_mul (y : Nat) : 365 * y ≤ Y0 y := by unfold Y0; omega

theorem Y0_mono {y y' : Nat} (h : y ≤ y') : Y0 y ≤ Y0 y' := by
  unfold Y0
  have h4 : (y + 3) / 4 ≤ (y' + 3) / 4 := Nat.div_le_div_right (by omega)
  have h400 : (y + 399) / 400 ≤ (y' + 399) / 400 := Nat.div_le_div_right (by omega)
  have h100 : (y + 99) / 100 ≤ (y' + 99) / 100 := Nat.div_le_div_right (by omega)
  omega

set_option maxHeartbeats 1000000 in
theorem Y0_step (y : Nat) : Y0 (y + 1) = Y0 y + daysInYear y := by
  unfold Y0 daysInYear isLeap
  split
  · rename_i h
    simp only [Bool.and_eq_true, beq_iff_eq, Bool.or_eq_true, bne_iff_ne] at h
    omega
  · rename_i h
    simp only [Bool.and_eq_true, beq_iff_eq, Bool.or_eq_true, bne_iff_ne, not_and, not_or,
      Decidable.not_not] at h
    omega

theorem daysInYear_bounds (y : Nat) : 365 ≤ daysInYear y ∧ daysInYear y ≤ 366 := by
  unfold daysInYear; split <;> omega

theorem yearOfAux_le : ∀ n d, Y0 (yearOfAux n d) ≤ d
  | 0, d => by simp [yearOfAux, Y0_zero]
  | n + 1, d => by
      unfold yearOfAux
      split
      · assumption
      · exact yearOfAux_le n d

theorem yearOfAux_lt : ∀ n d, d < Y0 (n + 1) → d < Y0 (yearOfAux n d + 1)
  | 0, d, h => by simpa [yearOfAux] using h
  | n + 1, d, h => by
      unfold yearOfAux
      split
      · exact h
      · exact yearOfAux_lt n d (by omega)

theorem yearOfAux_ge : ∀ n d y, y ≤ n → Y0 y ≤ d → y ≤ yearOfAux n d
  | 0, _, y, hy, _ => by simpa [yearOfAux] using hy
  | n + 1, d, y, hy, hY => by
      unfold yearOfAux
      split
      · exact hy
      · rename_i hlt
        refine yearOfAux_ge n d y ?_ hY
        rcases Nat.lt_or_ge y (n + 1) with h | h
        · omega
        · exact absurd (le_trans (Y0_mono h) hY) hlt

theorem yearOf_le (d : Nat) : Y0 (yearOf d) ≤ d := yearOfAux_le _ d

theorem yearOf_lt (d : Nat) : d < Y0 (yearOf d + 1) := by
  refine yearOfAux_lt _ d ?_
  have := Y0_ge_mul (d / 365 + 1 + 1)
  omega

theorem yearOf_ge {y d : Nat} (h : Y0 y ≤ d) : y ≤ yearOf d := by
  refine yearOfAux_ge _ d y ?_ h
  have := Y0_ge_mul y
  omega

theorem yearOf_mono {d d' : Nat} (h : d ≤ d') : yearOf d ≤ yearOf d' :=
  yearOf_ge (le_trans (yearOf_le d) h)

theorem yearOf_unique {y d : Nat} (h1 : Y0 y ≤ d) (h2 : d < Y0 (y + 1)) : yearOf d = y := by
  have hge := yearOf_ge h1
  by_contra hne
  have : y + 1 ≤ yearOf d := by omega
  have := le_trans (Y0_mono this) (yearOf_le d)
  omega

theorem yearOf_lt_of_lt {y d : Nat} (h : d < Y0 y) : yearOf d < y := by
  by_contra hge
  have := le_trans (Y0_mono (Nat.le_of_not_lt hge)) (yearOf_le d)
  omega

theorem wdAbs_bounds (a : Nat) : 1 ≤ wdAbs a ∧ wdAbs a ≤ 7 := by unfold wdAbs; omega

theorem wdAbs_add7 (a : Nat) : wdAbs (a + 7) = wdAbs a := by unfold wdAbs; omega

theorem isoThursday_add7 {a : Nat} (h : 3 ≤ a) :
    isoThursday (a + 7) = isoThursday a + 7 := by
  unfold isoThursday wdAbs; omega

theorem lexLT_trans {p q r : Nat × Nat} (h1 : lexLT p q) (h2 : lexLT q r) : lexLT p r := by
  unfold lexLT at *; omega

theorem isoOfThursday_lt_add7 (th : Nat) :
    lexLT (isoOfThursday th) (isoOfThursday (th + 7)) := by
  have hmono := yearOf_mono (Nat.le_add_right th 7)
  rcases Nat.lt_or_ge (yearOf th) (yearOf (th + 7)) with h | h
  · exact Or.inl h
  · have heq : yearOf (th + 7) = yearOf th := by omega
    refine Or.inr ⟨heq.symm, ?_⟩
    unfold isoOfThursday
    rw [heq]
    have := yearOf_le th
    omega

theorem isocal_lt_add7 {a : Nat} (h : 3 ≤ a) : lexLT (isocal a) (isocal (a + 7)) := by
  unfold isocal
  rw [isoThursday_add7 h]
  exact isoOfThursday_lt_add7 _

theorem isocal_lt_of_lt {a : Nat} (h3 : 3 ≤ a) :
    ∀ {i j : Nat}, i < j → lexLT (isocal (a + 7 * i)) (isocal (a + 7 * j)) := by
  intro i j hij
  induction j with
  | zero => omega
  | succ m ih =>
      rcases Nat.lt_or_ge i m with h | h
      · refine lexLT_trans (ih h) ?_
        have : a + 7 * (m + 1) = (a + 7 * m) + 7 := by ring
        rw [this]
        exact isocal_lt_add7 (by omega)
      · have : i = m := by omega
        subst this
        have : a + 7 * (i + 1) = (a + 7 * i) + 7 := by ring
        rw [this]
        exact isocal_lt_add7 (by omega)

theorem isoOfThursday_week_bounds (th : Nat) :
    1 ≤ (isoOfThursday th).2 ∧ (isoOfThursday th).2 ≤ 53 := by
  unfold isoOfThursday
  have h1 := yearOf_le th
  have h2 := yearOf_lt th
  have h3 := Y0_step (yearOf th)
  have h4 := daysInYear_bounds (yearOf th)
  simp only
  omega

theorem Y0_1969 : Y0 1969 = 719163 := by unfold Y0; omega

theorem Y0_1970 : Y0 1970 = 719528 := by unfold Y0; omega

theorem isoThursday_near (a : Nat) : a ≤ isoThursday a + 3 ∧ isoThursday a ≤ a + 3 := by
  unfold isoThursday wdAbs; omega

theorem isocal_year_lb {a : Nat} (h : 719528 ≤ a) : 1969 ≤ (isocal a).1 := by
  unfold isocal isoOfThursday
  simp only
  refine yearOf_ge ?_
  rw [Y0_1969]
  have := isoThursday_near a
  omega

theorem isocal_year_ub {a Y : Nat} (h : a + 3 < Y0 Y) : (isocal a).1 < Y := by
  unfold isocal isoOfThursday
  simp only
  refine yearOf_lt_of_lt ?_
  have := isoThursday_near a
  omega

theorem isoWeekMonday_isocal {m : Nat} (hwd : wdAbs m = 1) (hm : 366 ≤ m) :
    isoWeekMonday (isocal m).1 (isocal m).2 = m := by
  have hth : isoThursday m = m + 3 := by unfold isoThursday; omega
  unfold isocal
  rw [hth]
  have hy1 : 1 ≤ yearOf (m + 3) := by
    refine yearOf_ge ?_
    have : Y0 1 = 366 := by unfold Y0; omega
    omega
  have hA_le : Y0 (yearOf (m + 3)) ≤ m + 3 := yearOf_le (m + 3)
  have hA_ge : 366 ≤ Y0 (yearOf (m + 3)) := by
    have : Y0 1 = 366 := by unfold Y0; omega
    calc 366 = Y0 1 := this.symm
    _ ≤ Y0 (yearOf (m + 3)) := Y0_mono hy1
  unfold isoOfThursday isoWeekMonday wdAbs
  simp only
  unfold wdAbs at hwd
  omega

theorem dayOfTs_ge (t : Nat) : 719528 ≤ dayOfTs t := by unfold dayOfTs; omega

theorem dayOfTs_add_weeks (t k : Nat) : dayOfTs (t + 604800 * k) = dayOfTs t + 7 * k := by
  unfold dayOfTs; omega

theorem rollForwardMonday_ge (t : Nat) : t ≤ rollForwardMonday t := by
  unfold rollForwardMonday
  split <;> omega

theorem wdAbs_rollForwardMonday (t : Nat) : wdAbs (dayOfTs (rollForwardMonday t)) = 1 := by
  unfold rollForwardMonday
  split
  · assumption
  · rename_i h
    have hb := wdAbs_bounds (dayOfTs t)
    have : dayOfTs (t + (8 - wdAbs (dayOfTs t)) * 86400) =
        dayOfTs t + (8 - wdAbs (dayOfTs t)) := by
      unfold dayOfTs; omega
    rw [this]
    unfold wdAbs at *
    omega

theorem wdAbs_firstThursday (y : Nat) : wdAbs (firstThursday y) = 4 := by
  unfold firstThursday wdAbs; omega

theorem isocal_firstThursday (y : Nat) : isocal (firstThursday y) = (y, 1) := by
  have hwd := wdAbs_firstThursday y
  have hth : isoThursday (firstThursday y) = firstThursday y := by
    unfold isoThursday
    rw [hwd]
    have : 4 ≤ firstThursday y := by
      unfold firstThursday wdAbs at *
      omega
    omega
  have hlb : Y0 y ≤ firstThursday y := by unfold firstThursday; omega
  have hub : firstThursday y < Y0 (y + 1) := by
    have h1 := Y0_step y
    have h2 := daysInYear_bounds y
    unfold firstThursday wdAbs
    omega
  have hyr : yearOf (firstThursday y) = y := yearOf_unique hlb hub
  unfold isocal
  rw [hth]
  unfold isoOfThursday
  rw [hyr]
  have : (firstThursday y - Y0 y) / 7 = 0 := by
    refine Nat.div_eq_of_lt ?_
    unfold firstThursday wdAbs at *
    omega
  rw [this]

theorem isocal_succ_of_ne_sunday {a : Nat} (h3 : 3 ≤ a) (h7 : wdAbs a ≠ 7) :
    isocal (a + 1) = isocal a := by
  unfold isocal
  have : isoThursday (a + 1) = isoThursday a := by
    unfold isoThursday wdAbs at *
    omega
  rw [this]

theorem isocal_succ_of_sunday {a : Nat} (h3 : 3 ≤ a) (h7 : wdAbs a = 7) :
    lexLT (isocal a) (isocal (a + 1)) := by
  unfold isocal
  have h1 : isoThursday (a + 1) = isoThursday a + 7 := by
    unfold isoThursday wdAbs at *
    omega
  rw [h1]
  exact isoOfThursday_lt_add7 _

/-! ## Digit rendering and parsing lemmas -/

theorem digitCharsAux_fuel (n : Nat) : ∀ f1 f2, n < f1 → n < f2 →
    digitCharsAux f1 n = digitCharsAux f2 n := by
  induction n using Nat.strong_induction_on with
  | _ n ih =>
    intro f1 f2 h1 h2
    match f1, f2 with
    | g1 + 1, g2 + 1 =>
      show (if n < 10 then [digitChar n] else digitCharsAux g1 (n / 10) ++ [digitChar (n % 10)]) =
        (if n < 10 then [digitChar n] else digitCharsAux g2 (n / 10) ++ [digitChar (n % 10)])
      split
      · rfl
      · rename_i h10
        rw [ih (n / 10) (Nat.div_lt_self (by omega) (by omega)) g1 g2 (by omega) (by omega)]

theorem digitChars_eq (n : Nat) :
    digitChars n = if n < 10 then [digitChar n] else digitChars (n / 10) ++ [digitChar (n % 10)] := by
  show digitCharsAux (n + 1) n = _
  show (if n < 10 then [digitChar n] else digitCharsAux n (n / 10) ++ [digitChar (n % 10)]) = _
  split
  · rfl
  · rename_i h10
    rw [digitCharsAux_fuel (n / 10) n (n / 10 + 1) (by omega) (by omega)]
    rfl

theorem digitChar_toNat {d : Nat} (h : d ≤ 9) : (digitChar d).toNat = 48 + d := by
  interval_cases d <;> decide

theorem digitChar_lt_iff {a b : Nat} (ha : a ≤ 9) (hb : b ≤ 9) :
    digitChar a < digitChar b ↔ a < b := by
  interval_cases a <;> interval_cases b <;> decide

theorem digitChar_ne_dash (d : Nat) : ¬(digitChar d = '-') := by
  unfold digitChar; split <;> decide

theorem digitChars_ne_dash (n : Nat) : ∀ c ∈ digitChars n, ¬(c = '-') := by
  induction n using Nat.strong_induction_on with
  | _ n ih =>
    intro c hc
    rw [digitChars_eq] at hc
    split at hc
    · simp only [List.mem_singleton] at hc
      exact hc ▸ digitChar_ne_dash n
    · rename_i h
      rcases List.mem_append.mp hc with h1 | h1
      · exact ih (n / 10) (Nat.div_lt_self (by omega) (by omega)) c h1
      · simp only [List.mem_singleton] at h1
        exact h1 ▸ digitChar_ne_dash (n % 10)

theorem takeWhile_prefix_middle {α : Type} (p : α → Bool) :
    ∀ (l1 : List α) (b : α) (l2 : List α), (∀ c ∈ l1, p c = true) → p b = false →
      (l1 ++ b :: l2).takeWhile p = l1 := by
  intro l1
  induction l1 with
  | nil =>
      intro b l2 _ hb
      simp [List.takeWhile_cons, hb]
  | cons a l ih =>
      intro b l2 hall hb
      have ha : p a = true := hall a (by simp)
      simp only [List.cons_append, List.takeWhile_cons, ha, if_true]
      rw [ih b l2 (fun c hc => hall c (by simp [hc])) hb]

theorem drop_after_two {α : Type} :
    ∀ (l1 : List α) (b c : α) (l2 : List α), (l1 ++ b :: c :: l2).drop (l1.length + 2) = l2 := by
  intro l1
  induction l1 with
  | nil => intro b c l2; simp
  | cons a l ih =>
      intro b c l2
      simp only [List.cons_append, List.length_cons]
      have : l.length + 1 + 2 = (l.length + 2) + 1 := by omega
      rw [this, List.drop_succ_cons]
      exact ih b c l2

theorem parseDigits_append (l : List Char) (c : Char) :
    parseDigits (l ++ [c]) = 10 * parseDigits l + (c.toNat - 48) := by
  unfold parseDigits
  rw [List.foldl_append]
  rfl

theorem parseDigits_digitChars (n : Nat) : parseDigits (digitChars n) = n := by
  induction n using Nat.strong_induction_on with
  | _ n ih =>
    rw [digitChars_eq]
    split
    · rename_i h
      unfold parseDigits
      simp only [List.foldl_cons, List.foldl_nil]
      rw [digitChar_toNat (by omega)]
      omega
    · rename_i h
      rw [parseDigits_append, ih (n / 10) (Nat.div_lt_self (by omega) (by omega)),
        digitChar_toNat (show n % 10 ≤ 9 by omega)]
      omega

theorem parseDigits_pad2 (w : Nat) : parseDigits (pad2 w) = w := by
  unfold pad2
  split
  · show parseDigits ('0' :: digitChars w) = w
    unfold parseDigits
    simp only [List.foldl_cons]
    have h0 : 10 * 0 + ('0'.toNat - 48) = 0 := by decide
    rw [h0]
    exact parseDigits_digitChars w
  · exact parseDigits_digitChars w

theorem parseLabel_isoLabel (y w : Nat) : parseLabel (isoLabel y w) = (y, w) := by
  unfold parseLabel isoLabel
  have hdata : (⟨digitChars y ++ '-' :: 'W' :: pad2 w⟩ : String).data =
      digitChars y ++ '-' :: 'W' :: pad2 w := rfl
  rw [hdata]
  have htw : (digitChars y ++ '-' :: 'W' :: pad2 w).takeWhile (fun c => !(c == '-')) =
      digitChars y := by
    refine takeWhile_prefix_middle _ (digitChars y) '-' ('W' :: pad2 w) ?_ (by decide)
    intro c hc
    simpa using digitChars_ne_dash y c hc
  rw [htw]
  show (parseDigits (digitChars y),
      parseDigits (List.drop ((digitChars y).length + 2)
        (digitChars y ++ '-' :: 'W' :: pad2 w))) = (y, w)
  rw [drop_after_two, parseDigits_digitChars, parseDigits_pad2]

theorem weekToDate_isoLabel (y w : Nat) : weekToDate (isoLabel y w) = isoWeekMonday y w := by
  unfold weekToDate
  rw [parseLabel_isoLabel]

theorem isoLabel_inj {y1 w1 y2 w2 : Nat} (h : isoLabel y1 w1 = isoLabel y2 w2) :
    y1 = y2 ∧ w1 = w2 := by
  have := congrArg parseLabel h
  rw [parseLabel_isoLabel, parseLabel_isoLabel] at this
  exact ⟨congrArg Prod.fst this, congrArg Prod.snd this⟩

theorem digitChars_four {y : Nat} (h1 : 1000 ≤ y) (h2 : y ≤ 9999) :
    digitChars y = [digitChar (y / 1000), digitChar (y / 100 % 10),
      digitChar (y / 10 % 10), digitChar (y % 10)] := by
  have e1 : digitChars y = digitChars (y / 10) ++ [digitChar (y % 10)] := by
    rw [digitChars_eq]; rw [if_neg (by omega)]
  have e2 : digitChars (y / 10) = digitChars (y / 100) ++ [digitChar (y / 10 % 10)] := by
    rw [digitChars_eq]
    rw [if_neg (by omega)]
    have : y / 10 / 10 = y / 100 := by omega
    rw [this]
  have e3 : digitChars (y / 100) = digitChars (y / 1000) ++ [digitChar (y / 100 % 10)] := by
    rw [digitChars_eq]
    rw [if_neg (by omega)]
    have : y / 100 / 10 = y / 1000 := by omega
    rw [this]
  have e4 : digitChars (y / 1000) = [digitChar (y / 1000)] := by
    rw [digitChars_eq]; rw [if_pos (by omega)]
  rw [e1, e2, e3, e4]
  simp

theorem pad2_two {w : Nat} (h : w ≤ 99) :
    pad2 w = [digitChar (w / 10), digitChar (w % 10)] := by
  unfold pad2
  split
  · rename_i hw
    have ha : w / 10 = 0 := by omega
    have hb : w % 10 = w := by omega
    have hc : digitChars w = [digitChar w] := by
      rw [digitChars_eq]; rw [if_pos hw]
    rw [ha, hb, hc]
    rfl
  · rename_i hw
    have hc : digitChars w = digitChars (w / 10) ++ [digitChar (w % 10)] := by
      rw [digitChars_eq]; rw [if_neg hw]
    have hd : digitChars (w / 10) = [digitChar (w / 10)] := by
      rw [digitChars_eq]; rw [if_pos (by omega)]
    rw [hc, hd]
    rfl

theorem isoLabel_lt {y1 w1 y2 w2 : Nat} (hy1 : 1000 ≤ y1) (hy1' : y1 ≤ 9999)
    (hy2 : 1000 ≤ y2) (hy2' : y2 ≤ 9999) (hw1 : w1 ≤ 99) (hw2 : w2 ≤ 99)
    (h : lexLT (y1, w1) (y2, w2)) : pyLt (isoLabel y1 w1) (isoLabel y2 w2) := by
  show (isoLabel y1 w1).data < (isoLabel y2 w2).data
  have hdata1 : (isoLabel y1 w1).data = digitChars y1 ++ '-' :: 'W' :: pad2 w1 := rfl
  have hdata2 : (isoLabel y2 w2).data = digitChars y2 ++ '-' :: 'W' :: pad2 w2 := rfl
  rw [hdata1, hdata2, digitChars_four hy1 hy1', digitChars_four hy2 hy2',
    pad2_two hw1, pad2_two hw2]
  show List.Lex (· < ·) _ _
  simp only [List.cons_append, List.nil_append]
  have hq1 : y1 / 1000 ≤ 9 := by omega
  have hq2 : y2 / 1000 ≤ 9 := by omega
  rcases h with hy | ⟨hyeq, hw⟩
  · rcases Nat.lt_trichotomy (y1 / 1000) (y2 / 1000) with h1 | h1 | h1
    · exact List.Lex.rel ((digitChar_lt_iff hq1 hq2).mpr h1)
    · rw [h1]
      refine List.Lex.cons ?_
      rcases Nat.lt_trichotomy (y1 / 100 % 10) (y2 / 100 % 10) with h2 | h2 | h2
      · exact List.Lex.rel ((digitChar_lt_iff (by omega) (by omega)).mpr h2)
      · rw [h2]
        refine List.Lex.cons ?_
        rcases Nat.lt_trichotomy (y1 / 10 % 10) (y2 / 10 % 10) with h3 | h3 | h3
        · exact List.Lex.rel ((digitChar_lt_iff (by omega) (by omega)).mpr h3)
        · rw [h3]
          refine List.Lex.cons ?_
          rcases Nat.lt_trichotomy (y1 % 10) (y2 % 10) with h4 | h4 | h4
          · exact List.Lex.rel ((digitChar_lt_iff (by omega) (by omega)).mpr h4)
          · omega
          · omega
        · omega
      · omega
    · omega
  · subst hyeq
    refine List.Lex.cons (List.Lex.cons (List.Lex.cons (List.Lex.cons
      (List.Lex.cons (List.Lex.cons ?_)))))
    rcases Nat.lt_trichotomy (w1 / 10) (w2 / 10) with h1 | h1 | h1
    · exact List.Lex.rel ((digitChar_lt_iff (by omega) (by omega)).mpr h1)
    · rw [h1]
      refine List.Lex.cons ?_
      rcases Nat.lt_trichotomy (w1 % 10) (w2 % 10) with h2 | h2 | h2
      · exact List.Lex.rel ((digitChar_lt_iff (by omega) (by omega)).mpr h2)
      · omega
      · omega
    · omega

/-! ## Generic list lemmas: sort and map, partition counting -/

theorem map_orderedInsert_rel {α β : Type} (f : α → β) (r : α → α → Prop)
    (r' : β → β → Prop) [DecidableRel r] [DecidableRel r']
    (hrr : ∀ x y, r x y ↔ r' (f x) (f y)) (a : α) :
    ∀ l : List α, (List.orderedInsert r a l).map f = List.orderedInsert r' (f a) (l.map f) := by
  intro l
  induction l with
  | nil => rfl
  | cons b l ih =>
      by_cases h : r a b
      · rw [List.orderedInsert_of_le r l h]
        show f a :: f b :: l.map f = List.orderedInsert r' (f a) ((b :: l).map f)
        rw [List.map_cons, List.orderedInsert_of_le r' _ ((hrr a b).mp h)]
      · have h' : ¬ r' (f a) (f b) := fun hc => h ((hrr a b).mpr hc)
        show (if r a b then a :: b :: l else b :: List.orderedInsert r a l).map f = _
        rw [if_neg h]
        show f b :: (List.orderedInsert r a l).map f = List.orderedInsert r' (f a) (f b :: l.map f)
        rw [ih]
        show _ = if r' (f a) (f b) then f a :: f b :: l.map f
          else f b :: List.orderedInsert r' (f a) (l.map f)
        rw [if_neg h']

theorem map_insertionSort_rel {α β : Type} (f : α → β) (r : α → α → Prop)
    (r' : β → β → Prop) [DecidableRel r] [DecidableRel r']
    (hrr : ∀ x y, r x y ↔ r' (f x) (f y)) :
    ∀ l : List α, (List.insertionSort r l).map f = List.insertionSort r' (l.map f) := by
  intro l
  induction l with
  | nil => rfl
  | cons a l ih =>
      show (List.orderedInsert r a (List.insertionSort r l)).map f = _
      rw [map_orderedInsert_rel f r r' hrr, ih]
      rfl

theorem countP_or_disjoint {α : Type} (p q : α → Bool) :
    ∀ l : List α, (∀ x ∈ l, ¬(p x = true ∧ q x = true)) →
      l.countP (fun x => p x || q x) = l.countP p + l.countP q := by
  intro l
  induction l with
  | nil => simp [List.countP_nil]
  | cons a l ih =>
      intro h
      rw [List.countP_cons, List.countP_cons, List.countP_cons,
        ih (fun x hx => h x (by simp [hx]))]
      have := h a (by simp)
      cases hp : p a <;> cases hq : q a <;> simp [hp, hq] at * <;> omega

theorem countP_partition {α β : Type} [DecidableEq β] [BEq β] [LawfulBEq β]
    (l : List α) (key : α → β) (q : α → Bool) :
    ∀ bs : List β, bs.Nodup →
      ((bs.map (fun b => l.countP (fun x => q x && (key x == b)))).sum =
        l.countP (fun x => q x && bs.contains (key x))) := by
  intro bs
  induction bs with
  | nil =>
      intro _
      simp [List.countP_eq_zero]
  | cons b bs ih =>
      intro hnd
      rw [List.nodup_cons] at hnd
      rw [List.map_cons, List.sum_cons, ih hnd.2]
      have hcongr : l.countP (fun x => q x && (b :: bs).contains (key x)) =
          l.countP (fun x => (q x && (key x == b)) || (q x && bs.contains (key x))) := by
        refine List.countP_congr ?_
        intro x _
        rw [List.contains_cons]
        cases q x <;> cases hkb : (key x == b) <;> cases bs.contains (key x) <;> simp
      rw [hcongr, countP_or_disjoint]
      intro x _ ⟨h1, h2⟩
      rw [Bool.and_eq_true] at h1 h2
      have hb : key x = b := by
        have := h1.2
        exact eq_of_beq this
      have : b ∈ bs := by
        rw [← hb]
        exact List.elem_iff.mp h2.2
      exact hnd.1 this

/-! ## Lemmas on fullIndex -/

theorem mem_fullIndex : ∀ (ws ps : List String) (w p : String),
    (w, p) ∈ fullIndex ws ps ↔ w ∈ ws ∧ p ∈ ps := by
  intro ws
  induction ws with
  | nil => simp [fullIndex]
  | cons w0 ws ih =>
      intro ps w p
      show (w, p) ∈ ps.map (fun p => (w0, p)) ++ fullIndex ws ps ↔ _
      rw [List.mem_append]
      simp only [List.mem_map, List.mem_cons, Prod.mk.injEq]
      rw [ih]
      constructor
      · rintro (⟨p', hp', he1, he2⟩ | ⟨h1, h2⟩)
        · exact ⟨Or.inl he1.symm, he2 ▸ hp'⟩
        · exact ⟨Or.inr h1, h2⟩
      · rintro ⟨h1 | h1, h2⟩
        · exact Or.inl ⟨p, h2, h1.symm, rfl⟩
        · exact Or.inr ⟨h1, h2⟩

theorem length_fullIndex : ∀ (ws ps : List String),
    (fullIndex ws ps).length = ws.length * ps.length := by
  intro ws
  induction ws with
  | nil => simp [fullIndex]
  | cons w0 ws ih =>
      intro ps
      show (ps.map (fun p => (w0, p)) ++ fullIndex ws ps).length = _
      rw [List.length_append, List.length_map, ih]
      simp [List.length_cons]
      ring

theorem nodup_fullIndex : ∀ (ws ps : List String), ws.Nodup → ps.Nodup →
    (fullIndex ws ps).Nodup := by
  intro ws
  induction ws with
  | nil => intro ps _ _; exact List.nodup_nil
  | cons w0 ws ih =>
      intro ps hw hp
      rw [List.nodup_cons] at hw
      show (ps.map (fun p => (w0, p)) ++ fullIndex ws ps).Nodup
      refine List.Nodup.append ?_ (ih ps hw.2 hp) ?_
      · exact hp.map (fun a b hab => (Prod.mk.injEq _ _ _ _ ▸ hab).2)
      · rw [List.disjoint_left]
        rintro ⟨a, b⟩ hmem hmem2
        rcases List.mem_map.mp hmem with ⟨p', _, he⟩
        obtain ⟨h1, h2⟩ := Prod.mk.inj he
        subst h1; subst h2
        have := (mem_fullIndex ws ps w0 p').mp hmem2
        exact hw.1 this.1

theorem sum_map_fullIndex (g : String × String → Nat) : ∀ (ws ps : List String),
    ((fullIndex ws ps).map g).sum = (ws.map (fun w => ((ps.map (fun p => g (w, p))).sum))).sum := by
  intro ws
  induction ws with
  | nil => simp [fullIndex]
  | cons w0 ws ih =>
      intro ps
      show ((ps.map (fun p => (w0, p)) ++ fullIndex ws ps).map g).sum = _
      rw [List.map_append, List.sum_append, ih, List.map_cons, List.sum_cons, List.map_map]
      rfl

/-! ## Lemmas on wmonRange -/

theorem mem_wmonRange {x s n : Nat} : x ∈ wmonRange s n ↔ ∃ k, k < n ∧ x = s + 604800 * k := by
  unfold wmonRange
  simp only [List.mem_map, List.mem_range]
  constructor
  · rintro ⟨k, hk, he⟩; exact ⟨k, hk, he.symm⟩
  · rintro ⟨k, hk, he⟩; exact ⟨k, hk, he.symm⟩

/-! ## Order facts on strings -/

theorem pyLt_of_pyLe_ne {a b : String} (h1 : pyLe a b) (h2 : a ≠ b) : pyLt a b := by
  refine lt_of_le_of_ne h1 ?_
  intro hc
  apply h2
  cases a; cases b
  exact congrArg String.mk hc

theorem pyLt_irrefl (a : String) : ¬ pyLt a a := lt_irrefl a.data

theorem pyLt_trans {a b c : String} (h1 : pyLt a b) (h2 : pyLt b c) : pyLt a c :=
  lt_trans h1 h2

theorem pyLe_of_pyLt {a b : String} (h : pyLt a b) : pyLe a b := le_of_lt h

theorem pairwise_pyLt_of_sorted_nodup {l : List String} (hs : List.Sorted pyLe l)
    (hn : l.Nodup) : List.Pairwise pyLt l :=
  (hs.and hn).imp (fun h => pyLt_of_pyLe_ne h.1 h.2)

/-! ## Pipeline structure lemmas -/

theorem pipeline_some {raw : List RawRecord} {sel : Option String} {tbl : List Cell} :
    pipeline raw sel = some tbl ↔
      ∃ ws, uniqueWeeksM (normalizeRecords raw) = some ws ∧
        tbl = updateChart (normalizeRecords raw) ws (uniquePeople (normalizeRecords raw)) sel := by
  unfold pipeline
  rw [Option.map_eq_some']
  constructor
  · rintro ⟨ws, h1, h2⟩; exact ⟨ws, h1, h2.symm⟩
  · rintro ⟨ws, h1, h2⟩; exact ⟨ws, h1, h2.symm⟩

theorem mem_applyFilter {rows : List Row} {sel : Option String} {r : Row}
    (h : r ∈ applyFilter rows sel) : r ∈ rows := by
  unfold applyFilter at h
  match sel with
  | none => exact h
  | some g =>
      simp only at h
      split at h
      · exact h
      · exact (List.mem_filter.mp h).1

theorem mem_uniquePeople {rows : List Row} {r : Row} (h : r ∈ rows) :
    r.assigned_to ∈ uniquePeople rows := by
  unfold uniquePeople sortedStrings
  rw [List.mem_insertionSort, List.mem_dedup]
  exact List.mem_map_of_mem _ h

theorem nodup_sortedStrings_dedup (l : List String) : (sortedStrings l.dedup).Nodup :=
  (List.perm_insertionSort pyLe l.dedup).symm.nodup (List.nodup_dedup l)

theorem nodup_uniquePeople (rows : List Row) : (uniquePeople rows).Nodup :=
  nodup_sortedStrings_dedup _

theorem nodup_uniqueWeeks {rows : List Row} {ws : List String}
    (h : uniqueWeeksM rows = some ws) : ws.Nodup := by
  unfold uniqueWeeksM at h
  rcases Option.map_eq_some'.mp h with ⟨ls, _, he⟩
  exact he ▸ nodup_sortedStrings_dedup ls

theorem sorted_uniqueWeeks {rows : List Row} {ws : List String}
    (h : uniqueWeeksM rows = some ws) : List.Sorted pyLe ws := by
  unfold uniqueWeeksM at h
  rcases Option.map_eq_some'.mp h with ⟨ls, _, he⟩
  exact he ▸ List.sorted_insertionSort pyLe ls.dedup

theorem mem_uniqueWeeks_iff {rows : List Row} {ws : List String} {s : String}
    (h : uniqueWeeksM rows = some ws) :
    s ∈ ws ↔ ∃ ls, allWeekLabelsM rows = some ls ∧ s ∈ ls := by
  unfold uniqueWeeksM at h
  rcases Option.map_eq_some'.mp h with ⟨ls, hls, he⟩
  subst he
  unfold sortedStrings
  rw [List.mem_insertionSort, List.mem_dedup]
  constructor
  · intro hm; exact ⟨ls, hls, hm⟩
  · rintro ⟨ls', hls', hm⟩
    rw [hls] at hls'
    cases hls'
    exact hm

/-! ## Count conservation machinery -/

theorem cellsSum_insertionSort (cells : List Cell) :
    cellsSum (List.insertionSort cellLE cells) = cellsSum cells := by
  unfold cellsSum
  exact ((List.perm_insertionSort cellLE cells).map (fun c => c.count)).sum_eq

theorem cellsSum_updateChart (rows : List Row) (ws ps : List String) (sel : Option String)
    (hws : ws.Nodup) (hpnd : ps.Nodup)
    (hp : ∀ r ∈ applyFilter rows sel, r.assigned_to ∈ ps) :
    cellsSum (updateChart rows ws ps sel) =
      (applyFilter rows sel).countP (fun r => ws.contains (rowWeekLabel r)) := by
  unfold updateChart
  rw [cellsSum_insertionSort]
  unfold cellsSum
  rw [List.map_map]
  have hmm : ((fullIndex ws ps).map
      ((fun c : Cell => c.count) ∘ (fun wp : String × String =>
        (⟨wp.1, wp.2, countIn (applyFilter rows sel) wp.1 wp.2, weekToDate wp.1⟩ : Cell)))) =
      (fullIndex ws ps).map (fun wp => countIn (applyFilter rows sel) wp.1 wp.2) := rfl
  rw [hmm, sum_map_fullIndex (fun wp => countIn (applyFilter rows sel) wp.1 wp.2)]
  have hinner : ∀ w ∈ ws, ((ps.map (fun p =>
      countIn (applyFilter rows sel) w p)).sum) =
      (applyFilter rows sel).countP (fun r => rowWeekLabel r == w) := by
    intro w _
    unfold countIn
    rw [countP_partition (applyFilter rows sel) (fun r => r.assigned_to)
      (fun r => rowWeekLabel r == w) ps hpnd]
    refine List.countP_congr ?_
    intro r hr
    have := hp r hr
    have hc : ps.contains r.assigned_to = true := List.elem_iff.mpr this
    rw [hc]
    cases hb : (rowWeekLabel r == w) <;> simp [hb]
  rw [List.map_congr_left hinner]
  have houter : (ws.map (fun w => (applyFilter rows sel).countP (fun r => rowWeekLabel r == w))) =
      (ws.map (fun w => (applyFilter rows sel).countP
        (fun r => (fun _ => true) r && (rowWeekLabel r == w)))) := by
    refine List.map_congr_left ?_
    intro w _
    refine List.countP_congr ?_
    intro r _
    simp
  rw [houter, countP_partition (applyFilter rows sel) rowWeekLabel (fun _ => true) ws hws]
  refine List.countP_congr ?_
  intro r _
  simp

/-! ## Claim theorems: count conservation (C2) -/

/-- C2, corrected: the sum of all counts of the dense output table equals
    the number of filtered normalized records whose week label lies in the
    computed week axis.  Records outside the axis (for example in the
    partial first week that date_range drops when the minimum opened_at is
    not a Monday) are silently lost by the reindex, so the sum can be
    smaller than the number of filtered valid records. -/
theorem C2_count_conservation (raw : List RawRecord) (sel : Option String)
    (ws : List String) (tbl : List Cell)
    (hws : uniqueWeeksM (normalizeRecords raw) = some ws)
    (htbl : pipeline raw sel = some tbl) :
    cellsSum tbl =
      (applyFilter (normalizeRecords raw) sel).countP
        (fun r => ws.contains (rowWeekLabel r)) := by
  rcases pipeline_some.mp htbl with ⟨ws', hws', he⟩
  rw [hws] at hws'
  cases hws'
  subst he
  exact cellsSum_updateChart _ _ _ _ (nodup_uniqueWeeks hws) (nodup_uniquePeople _)
    (fun r hr => mem_uniquePeople (mem_applyFilter hr))

set_option maxHeartbeats 4000000 in
/-- Witness for C2: on a one-record dataset the identity is non-vacuous. -/
theorem C2_count_conservation_witness :
    uniqueWeeksM (normalizeRecords mondayRaw) = some ["2024-W02"] ∧
    pipeline mondayRaw none = some [⟨"2024-W02", "A", 1, 739258⟩] ∧
    cellsSum [⟨"2024-W02", "A", 1, 739258⟩] =
      (applyFilter (normalizeRecords mondayRaw) none).countP
        (fun r => ["2024-W02"].contains (rowWeekLabel r)) :=
  ⟨by decide, by decide,
    C2_count_conservation mondayRaw none ["2024-W02"] [⟨"2024-W02", "A", 1, 739258⟩]
      (by decide) (by decide)⟩

set_option maxHeartbeats 4000000 in
/-- Counterexample to C2 as stated: in the spec section 8 scenario
    (records on 2024-01-03 and 2024-01-17, no filter) the table's counts
    sum to 1 while there are 2 filtered normalized records with valid
    timestamps: the record in the dropped first week is not counted. -/
theorem C2_counterexample :
    (pipeline specRaw none).map cellsSum = some 1
    ∧ (applyFilter (normalizeRecords specRaw) none).length = 2
    ∧ (1 : Nat) ≠ 2 :=
  ⟨by decide, by decide, by decide⟩

/-! ## Claim theorems: density (C3) -/

/-- C3, confirmed: the output table has exactly one cell per pair of the
    cross-product of the computed week axis and the assignee set —
    |CalendarSpan| times |AssigneeSet| cells, no duplicates, no omissions —
    each carrying the filtered count of its pair, 0 when no filtered
    record matches. -/
theorem C3_density (raw : List RawRecord) (sel : Option String)
    (ws : List String) (tbl : List Cell)
    (hws : uniqueWeeksM (normalizeRecords raw) = some ws)
    (htbl : pipeline raw sel = some tbl) :
    tbl.length = ws.length * (uniquePeople (normalizeRecords raw)).length
    ∧ (tbl.map (fun c => (c.week_label, c.assigned_to))).Perm
        (fullIndex ws (uniquePeople (normalizeRecords raw)))
    ∧ (tbl.map (fun c => (c.week_label, c.assigned_to))).Nodup
    ∧ (∀ c ∈ tbl, c.count =
        countIn (applyFilter (normalizeRecords raw) sel) c.week_label c.assigned_to)
    ∧ (∀ c ∈ tbl, (∀ r ∈ applyFilter (normalizeRecords raw) sel,
        ¬(rowWeekLabel r = c.week_label ∧ r.assigned_to = c.assigned_to)) → c.count = 0) := by
  rcases pipeline_some.mp htbl with ⟨ws', hws', he⟩
  rw [hws] at hws'
  cases hws'
  subst he
  unfold updateChart
  have hperm := List.perm_insertionSort cellLE
    ((fullIndex ws (uniquePeople (normalizeRecords raw))).map
      (fun wp => (⟨wp.1, wp.2, countIn (applyFilter (normalizeRecords raw) sel) wp.1 wp.2,
        weekToDate wp.1⟩ : Cell)))
  have hpairs : ((fullIndex ws (uniquePeople (normalizeRecords raw))).map
      (fun wp => (⟨wp.1, wp.2, countIn (applyFilter (normalizeRecords raw) sel) wp.1 wp.2,
        weekToDate wp.1⟩ : Cell))).map (fun c => (c.week_label, c.assigned_to)) =
      fullIndex ws (uniquePeople (normalizeRecords raw)) := by
    rw [List.map_map]
    have : ∀ wp ∈ fullIndex ws (uniquePeople (normalizeRecords raw)),
        ((fun (c : Cell) => (c.week_label, c.assigned_to)) ∘
          (fun wp => (⟨wp.1, wp.2, countIn (applyFilter (normalizeRecords raw) sel) wp.1 wp.2,
            weekToDate wp.1⟩ : Cell))) wp = id wp := by
      intro wp _
      show (wp.1, wp.2) = wp
      exact Prod.mk.eta
    rw [List.map_congr_left this, List.map_id]
  refine ⟨?_, ?_, ?_, ?_, ?_⟩
  · rw [hperm.length_eq, List.length_map, length_fullIndex]
  · have := hperm.map (fun c => (c.week_label, c.assigned_to))
    rw [hpairs] at this
    exact this
  · have hp2 := hperm.map (fun c => (c.week_label, c.assigned_to))
    rw [hpairs] at hp2
    exact hp2.symm.nodup
      (nodup_fullIndex _ _ (nodup_uniqueWeeks hws) (nodup_uniquePeople _))
  · intro c hc
    have hc' := (List.mem_insertionSort cellLE).mp hc
    rcases List.mem_map.mp hc' with ⟨wp, _, he⟩
    rw [← he]
  · intro c hc hnone
    have hc' := (List.mem_insertionSort cellLE).mp hc
    rcases List.mem_map.mp hc' with ⟨wp, _, he⟩
    rw [← he]
    show countIn (applyFilter (normalizeRecords raw) sel) wp.1 wp.2 = 0
    unfold countIn
    rw [List.countP_eq_zero]
    intro r hr hpred
    rw [Bool.and_eq_true, beq_iff_eq, beq_iff_eq] at hpred
    have := hnone r hr
    rw [← he] at this
    exact this ⟨hpred.1, hpred.2⟩

set_option maxHeartbeats 4000000 in
/-- Witness for C3: two assignees, one week. -/
theorem C3_density_witness :
    uniqueWeeksM (normalizeRecords tieRaw) = some ["2024-W02"] ∧
    pipeline tieRaw none =
      some [⟨"2024-W02", "A", 1, 739258⟩, ⟨"2024-W02", "B", 1, 739258⟩] ∧
    ([(⟨"2024-W02", "A", 1, 739258⟩ : Cell), ⟨"2024-W02", "B", 1, 739258⟩]).length =
      ["2024-W02"].length * (uniquePeople (normalizeRecords tieRaw)).length :=
  ⟨by decide, by decide,
    (C3_density tieRaw none ["2024-W02"]
      [⟨"2024-W02", "A", 1, 739258⟩, ⟨"2024-W02", "B", 1, 739258⟩]
      (by decide) (by decide)).1⟩

/-! ## Claim theorems: axis stability (C6) -/

theorem map_cellKey_updateChart (rows : List Row) (ws ps : List String) (sel : Option String) :
    (updateChart rows ws ps sel).map cellKey =
      List.insertionSort keyLE ((fullIndex ws ps).map (fun wp => (wp.1, wp.2, weekToDate wp.1))) := by
  unfold updateChart
  rw [map_insertionSort_rel cellKey cellLE keyLE (fun x y => Iff.rfl)]
  rw [List.map_map]
  rfl

/-- C6, confirmed: the week axis and assignee set of the output — indeed
    the entire (week_label, assigned_to, week_sort) skeleton of the table,
    cell for cell — are the same for every filter selection as with no
    filter; only counts change. -/
theorem C6_axis_stability (raw : List RawRecord) (sel : Option String) :
    (pipeline raw sel).map (fun tbl => tbl.map cellKey) =
      (pipeline raw none).map (fun tbl => tbl.map cellKey) := by
  have hpipe : ∀ s, pipeline raw s = (uniqueWeeksM (normalizeRecords raw)).map
      (fun ws => updateChart (normalizeRecords raw) ws
        (uniquePeople (normalizeRecords raw)) s) := fun s => rfl
  rw [hpipe sel, hpipe none]
  cases h : uniqueWeeksM (normalizeRecords raw) with
  | none => rfl
  | some ws =>
      simp only [Option.map_some']
      rw [map_cellKey_updateChart, map_cellKey_updateChart]

/-! ## Claim theorems: filter gate (C7) -/

theorem mem_assignmentGroups {rows : List Row} {r : Row} (h : r ∈ rows) :
    r.assignment_group ∈ assignmentGroups rows := by
  unfold assignmentGroups sortedStrings
  rw [List.mem_insertionSort, List.mem_dedup]
  exact List.mem_map_of_mem _ h

theorem applyFilter_empty_string (rows : List Row) :
    applyFilter rows (some "") = applyFilter rows none := by
  show (if ("" : String) = "" then rows
    else rows.filter (fun r => r.assignment_group == "")) = rows
  rw [if_pos rfl]

theorem applyFilter_unknown {rows : List Row} {g : String} (hne : g ≠ "")
    (hg : g ∉ assignmentGroups rows) : applyFilter rows (some g) = [] := by
  show (if g = "" then rows
    else rows.filter (fun r => r.assignment_group == g)) = []
  rw [if_neg hne]
  rw [List.filter_eq_nil_iff]
  intro r hr hpred
  rw [beq_iff_eq] at hpred
  exact hg (hpred ▸ mem_assignmentGroups hr)

/-- C7, corrected: an unselected filter (None, or the falsy empty string)
    passes all records through, identical to no filter, and an unknown
    non-empty value never raises — but it is NOT treated as no filter: it
    filters out every record, so the table keeps the same axes with every
    count 0 instead of equalling the unfiltered table. -/
theorem C7_filter_handling (raw : List RawRecord) (g : String) :
    pipeline raw (some "") = pipeline raw none
    ∧ (g ≠ "" → g ∉ assignmentGroups (normalizeRecords raw) →
        ((pipeline raw (some g)).map (fun tbl => tbl.map cellKey) =
          (pipeline raw none).map (fun tbl => tbl.map cellKey))
        ∧ (∀ tbl, pipeline raw (some g) = some tbl → ∀ c ∈ tbl, c.count = 0)
        ∧ (pipeline raw (some g)).isSome = (pipeline raw none).isSome) := by
  have hpipe : ∀ s, pipeline raw s = (uniqueWeeksM (normalizeRecords raw)).map
      (fun ws => updateChart (normalizeRecords raw) ws
        (uniquePeople (normalizeRecords raw)) s) := fun s => rfl
  constructor
  · rw [hpipe (some ""), hpipe none]
    cases h : uniqueWeeksM (normalizeRecords raw) with
    | none => rfl
    | some ws =>
        simp only [Option.map_some']
        unfold updateChart
        rw [applyFilter_empty_string]
  · intro hne hg
    refine ⟨?_, ?_, ?_⟩
    · rw [hpipe (some g), hpipe none]
      cases h : uniqueWeeksM (normalizeRecords raw) with
      | none => rfl
      | some ws =>
          simp only [Option.map_some']
          rw [map_cellKey_updateChart, map_cellKey_updateChart]
    · intro tbl htbl c hc
      rcases pipeline_some.mp htbl with ⟨ws, hws, he⟩
      subst he
      unfold updateChart at hc
      have hc' := (List.mem_insertionSort cellLE).mp hc
      rcases List.mem_map.mp hc' with ⟨wp, _, he⟩
      rw [← he]
      show countIn (applyFilter (normalizeRecords raw) (some g)) wp.1 wp.2 = 0
      rw [applyFilter_unknown hne hg]
      rfl
    · rw [hpipe (some g), hpipe none]
      cases h : uniqueWeeksM (normalizeRecords raw) with
      | none => rfl
      | some ws => rfl

set_option maxHeartbeats 4000000 in
/-- Witness for C7 at a concrete dataset and an unknown group value. -/
theorem C7_filter_handling_witness :
    ("ZZZ" : String) ≠ ""
    ∧ "ZZZ" ∉ assignmentGroups (normalizeRecords mondayRaw)
    ∧ pipeline mondayRaw (some "") = pipeline mondayRaw none
    ∧ ((pipeline mondayRaw (some "ZZZ")).map (fun tbl => tbl.map cellKey) =
        (pipeline mondayRaw none).map (fun tbl => tbl.map cellKey)) :=
  ⟨by decide, by decide, (C7_filter_handling mondayRaw "ZZZ").1,
    ((C7_filter_handling mondayRaw "ZZZ").2 (by decide) (by decide)).1⟩

set_option maxHeartbeats 4000000 in
/-- Counterexample to C7 as stated: with one record and the unknown group
    "ZZZ", the output table is all zeros, not equal to the unfiltered
    table. -/
theorem C7_counterexample :
    pipeline mondayRaw (some "ZZZ") ≠ pipeline mondayRaw none
    ∧ (pipeline mondayRaw (some "ZZZ")).map (fun tbl => tbl.map (fun c => c.count)) = some [0]
    ∧ (pipeline mondayRaw none).map (fun tbl => tbl.map (fun c => c.count)) = some [1] :=
  ⟨by decide, by decide, by decide⟩

/-! ## Claim theorems: empty input (C4) -/

/-- C4, corrected: on an empty dataset, or one where every opened_at fails
    to parse, there is no valid timestamp, the min/max endpoints are NaT
    and pd.date_range raises a ValueError (modelled as none): the pipeline
    errors out instead of producing an empty CalendarSpan and empty
    table. -/
theorem C4_error_on_empty (raw : List RawRecord) (sel : Option String)
    (h : normalizeRecords raw = []) : pipeline raw sel = none := by
  show (uniqueWeeksM (normalizeRecords raw)).map _ = none
  rw [h]
  rfl

/-- Witness for C4: a dataset whose only record has an unparseable
    timestamp. -/
theorem C4_error_on_empty_witness :
    normalizeRecords invalidRaw = [] ∧ pipeline invalidRaw none = none :=
  ⟨by decide, C4_error_on_empty invalidRaw none (by decide)⟩

/-- Counterexample to C4 as stated: the pipeline yields the error value,
    never some empty table, on empty and on fully-invalid input. -/
theorem C4_counterexample :
    pipeline ([] : List RawRecord) none = none
    ∧ pipeline invalidRaw none = none
    ∧ (none : Option (List Cell)) ≠ some [] :=
  ⟨by decide, by decide, by decide⟩

/-! ## Claim theorems: lone partial week (C10) -/

set_option maxHeartbeats 4000000 in
/-- C10, confirmed: a non-empty dataset of valid records, all in one ISO
    week with the earliest opened_at not on a Monday (a single record on
    Wednesday 2024-01-03), yields an empty week axis and an output table
    with zero cells. -/
theorem C10_partial_week_empty_axis :
    normalizeRecords lonelyWednesdayRaw ≠ []
    ∧ wdAbs (dayOfTs (tsOfDate 2024 1 3)) ≠ 1
    ∧ uniqueWeeksM (normalizeRecords lonelyWednesdayRaw) = some []
    ∧ pipeline lonelyWednesdayRaw none = some [] :=
  ⟨by decide, by decide, by decide, by decide⟩

/-! ## Claim theorems: series ordering (C9) -/

theorem orderedInsert_pairwise_totals (t : String → Nat) (x : String) :
    ∀ l : List String,
      List.Pairwise (fun a b => t b < t a ∨ (t a = t b ∧ pyLt a b)) l →
      (∀ b ∈ l, pyLt x b) →
      List.Pairwise (fun a b => t b < t a ∨ (t a = t b ∧ pyLt a b))
        (List.orderedInsert (fun a b => t b ≤ t a) x l) := by
  intro l
  induction l with
  | nil =>
      intro _ _
      exact List.pairwise_singleton _ _
  | cons b l ih =>
      intro hl hx
      rw [List.pairwise_cons] at hl
      by_cases h : t b ≤ t x
      · show List.Pairwise _
          (if t b ≤ t x then x :: b :: l else b :: List.orderedInsert (fun a b => t b ≤ t a) x l)
        rw [if_pos h]
        refine List.pairwise_cons.mpr ⟨?_, List.pairwise_cons.mpr hl⟩
        intro c hc
        rcases List.mem_cons.mp hc with rfl | hc'
        · rcases Nat.lt_or_ge (t c) (t x) with h1 | h1
          · exact Or.inl h1
          · exact Or.inr ⟨by omega, hx c (by simp)⟩
        · have hbc := hl.1 c hc'
          have htb : t c ≤ t b := by rcases hbc with h1 | ⟨h1, _⟩ <;> omega
          rcases Nat.lt_or_ge (t c) (t x) with h1 | h1
          · exact Or.inl h1
          · exact Or.inr ⟨by omega, hx c (by simp [hc'])⟩
      · show List.Pairwise _
          (if t b ≤ t x then x :: b :: l else b :: List.orderedInsert (fun a b => t b ≤ t a) x l)
        rw [if_neg h]
        refine List.pairwise_cons.mpr ⟨?_, ih hl.2 (fun c hc => hx c (by simp [hc]))⟩
        intro c hc
        rcases (List.mem_orderedInsert _).mp hc with rfl | hc'
        · exact Or.inl (by omega)
        · exact hl.1 c hc'

theorem insertionSort_pairwise_totals (t : String → Nat) :
    ∀ l : List String, List.Pairwise pyLt l →
      List.Pairwise (fun a b => t b < t a ∨ (t a = t b ∧ pyLt a b))
        (List.insertionSort (fun a b => t b ≤ t a) l) := by
  intro l
  induction l with
  | nil => intro _; exact List.Pairwise.nil
  | cons x l ih =>
      intro hl
      rw [List.pairwise_cons] at hl
      show List.Pairwise _ (List.orderedInsert _ x (List.insertionSort _ l))
      refine orderedInsert_pairwise_totals t x _ (ih hl.2) ?_
      intro b hb
      exact hl.1 b ((List.mem_insertionSort _).mp hb)

theorem sorted_uniquePeople (rows : List Row) : List.Sorted pyLe (uniquePeople rows) :=
  List.sorted_insertionSort pyLe _

/-- C9, confirmed: the assignee series order is a permutation of the
    assignee set, sorted by total count descending with ties between
    equal totals broken by assignee identifier ascending: pandas nargsort
    implements ascending=False by reversing the values before the argsort
    and the indexer after it, so the descending sort is stable and ties
    keep the original order of the groupby index, which is ascending.
    The ordering is deterministic. -/
theorem C9_series_order (tbl : List Cell) (rows : List Row) :
    (totalsOrder tbl (uniquePeople rows)).Perm (uniquePeople rows)
    ∧ List.Pairwise (fun a b => personTotal tbl b < personTotal tbl a ∨
        (personTotal tbl a = personTotal tbl b ∧ pyLt a b))
        (totalsOrder tbl (uniquePeople rows)) := by
  constructor
  · unfold totalsOrder
    exact List.perm_insertionSort _ _
  · unfold totalsOrder
    have hpw : List.Pairwise pyLt (uniquePeople rows) :=
      pairwise_pyLt_of_sorted_nodup (sorted_uniquePeople rows) (nodup_uniquePeople rows)
    exact insertionSort_pairwise_totals (personTotal tbl) _ hpw

set_option maxHeartbeats 4000000 in
/-- Concrete check of the C9 tie-break: two assignees A and B with equal
    totals come out in ascending identifier order A, B. -/
theorem C9_tie_example :
    (pipeline tieRaw none).map
      (fun tbl => totalsOrder tbl (uniquePeople (normalizeRecords tieRaw))) = some ["A", "B"]
    ∧ (pipeline tieRaw none).map
        (fun tbl => (personTotal tbl "A", personTotal tbl "B")) = some (1, 1) :=
  ⟨by decide, by decide⟩

/-! ## Claim theorems: ISO week bucketing (C8) -/

set_option maxHeartbeats 4000000 in
/-- C8, confirmed: the week bucketer computes the ISO-8601 week-date.  The
    label of a record is the fixed "YYYY-Www" rendering (recoverable,
    zero-padded) of the isocalendar pair; the pair is constant from Monday
    through Sunday of a week and advances exactly at Monday; week 1 of y
    is the week of the year's first Thursday; 2023-12-31 buckets to
    2023-W52 and 2024-01-02 to 2024-W01, which also order correctly. -/
theorem C8_iso_week_bucketing :
    (∀ t : Nat, tsWeekLabel t = isoLabel (isocal (dayOfTs t)).1 (isocal (dayOfTs t)).2)
    ∧ (∀ a : Nat, 3 ≤ a → wdAbs a ≠ 7 → isocal (a + 1) = isocal a)
    ∧ (∀ a : Nat, 3 ≤ a → wdAbs a = 7 → lexLT (isocal a) (isocal (a + 1)))
    ∧ (∀ y : Nat, isocal (firstThursday y) = (y, 1))
    ∧ (∀ y w : Nat, parseLabel (isoLabel y w) = (y, w))
    ∧ (normalizeRecords [⟨some "A", some "X", some (tsOfDate 2023 12 31), "Incident"⟩]).map
        rowWeekLabel = ["2023-W52"]
    ∧ (normalizeRecords [⟨some "A", some "X", some (tsOfDate 2024 1 2), "Incident"⟩]).map
        rowWeekLabel = ["2024-W01"]
    ∧ pyLt "2023-W52" "2024-W01" :=
  ⟨fun _ => rfl,
   fun a h3 h7 => isocal_succ_of_ne_sunday h3 h7,
   fun a h3 h7 => isocal_succ_of_sunday h3 h7,
   isocal_firstThursday,
   parseLabel_isoLabel,
   by decide, by decide, by decide⟩

set_option maxHeartbeats 4000000 in
/-- Witness for C8 instantiating the conditional clauses: 2024-01-03 (a
    Wednesday) keeps its week key on the next day, 2024-01-07 (a Sunday)
    advances it, and 2024's first Thursday lies in week 2024-W01. -/
theorem C8_iso_week_bucketing_witness :
    (3 ≤ 739253 ∧ wdAbs 739253 ≠ 7 ∧ isocal (739253 + 1) = isocal 739253)
    ∧ (wdAbs 739257 = 7 ∧ lexLT (isocal 739257) (isocal (739257 + 1)))
    ∧ isocal (firstThursday 2024) = (2024, 1) :=
  ⟨⟨by decide, by decide,
    C8_iso_week_bucketing.2.1 739253 (by decide) (by decide)⟩,
   ⟨by decide,
    C8_iso_week_bucketing.2.2.1 739257 (by decide) (by decide)⟩,
   C8_iso_week_bucketing.2.2.2.1 2024⟩

/-! ## Week axis structure (machinery for C1 and C5) -/

theorem wdAbs_add_mul7 (a k : Nat) : wdAbs (a + 7 * k) = wdAbs a := by
  unfold wdAbs; omega

theorem dayOfTs_mono {t t' : Nat} (h : t ≤ t') : dayOfTs t ≤ dayOfTs t' := by
  have h2 : t / 86400 ≤ t' / 86400 := Nat.div_le_div_right h
  unfold dayOfTs
  omega

theorem isocal_week_bounds (a : Nat) : 1 ≤ (isocal a).2 ∧ (isocal a).2 ≤ 53 :=
  isoOfThursday_week_bounds (isoThursday a)

theorem allWeekLabelsM_inv {rows : List Row} {ls : List String}
    (h : allWeekLabelsM rows = some ls) :
    ∃ mn mx, minOpened rows = some mn ∧ maxOpened rows = some mx ∧
      ls = (dateRangeWMON mn mx).map tsWeekLabel := by
  unfold allWeekLabelsM at h
  cases hmn : minOpened rows with
  | none =>
      rw [hmn] at h
      exact absurd h (by simp)
  | some mn =>
      rw [hmn] at h
      cases hmx : maxOpened rows with
      | none =>
          rw [hmx] at h
          exact absurd h (by simp)
      | some mx =>
          rw [hmx] at h
          exact ⟨mn, mx, rfl, rfl, (Option.some.inj h).symm⟩

theorem mem_dateRange_labels (mn mx : Nat) (s : String) :
    s ∈ (dateRangeWMON mn mx).map tsWeekLabel ↔
      ∃ k, rollForwardMonday mn + 604800 * k ≤ mx ∧
        s = tsWeekLabel (rollForwardMonday mn + 604800 * k) := by
  unfold dateRangeWMON
  split
  · rename_i hle
    rw [List.mem_map]
    constructor
    · rintro ⟨t, ht, he⟩
      rcases mem_wmonRange.mp ht with ⟨k, hk, rfl⟩
      exact ⟨k, by omega, he.symm⟩
    · rintro ⟨k, hk, rfl⟩
      refine ⟨rollForwardMonday mn + 604800 * k, ?_, rfl⟩
      rw [mem_wmonRange]
      exact ⟨k, by omega, rfl⟩
  · rename_i hgt
    constructor
    · intro h
      exact absurd h (List.not_mem_nil s)
    · rintro ⟨k, hk, _⟩
      exact absurd (show rollForwardMonday mn ≤ mx by omega) hgt

theorem wdAbs_gen (mn k : Nat) : wdAbs (dayOfTs (rollForwardMonday mn + 604800 * k)) = 1 := by
  rw [dayOfTs_add_weeks, wdAbs_add_mul7]
  exact wdAbs_rollForwardMonday mn

theorem weekToDate_genLabel (t : Nat) (hwd : wdAbs (dayOfTs t) = 1) :
    weekToDate (tsWeekLabel t) = dayOfTs t := by
  unfold tsWeekLabel
  rw [weekToDate_isoLabel]
  exact isoWeekMonday_isocal hwd (by have := dayOfTs_ge t; omega)

theorem parseLabel_genLabel (t : Nat) : parseLabel (tsWeekLabel t) = isocal (dayOfTs t) := by
  unfold tsWeekLabel
  rw [parseLabel_isoLabel]

theorem lexLT_genLabels (mn k k' : Nat) (h : k < k') :
    lexLT (isocal (dayOfTs (rollForwardMonday mn + 604800 * k)))
          (isocal (dayOfTs (rollForwardMonday mn + 604800 * k'))) := by
  rw [dayOfTs_add_weeks, dayOfTs_add_weeks]
  exact isocal_lt_of_lt (by have := dayOfTs_ge (rollForwardMonday mn); omega) h

theorem pyLt_genLabels (mn mx k k' : Nat) (h : k < k')
    (hk' : rollForwardMonday mn + 604800 * k' ≤ mx)
    (hbound : dayOfTs mx + 3 < Y0 10000) :
    pyLt (tsWeekLabel (rollForwardMonday mn + 604800 * k))
         (tsWeekLabel (rollForwardMonday mn + 604800 * k')) := by
  have hydown : ∀ j, 1969 ≤ (isocal (dayOfTs (rollForwardMonday mn + 604800 * j))).1 :=
    fun j => isocal_year_lb (dayOfTs_ge _)
  have hyup : ∀ j, rollForwardMonday mn + 604800 * j ≤ mx →
      (isocal (dayOfTs (rollForwardMonday mn + 604800 * j))).1 < 10000 := by
    intro j hj
    refine isocal_year_ub ?_
    have := dayOfTs_mono hj
    omega
  have hk : rollForwardMonday mn + 604800 * k ≤ mx := by omega
  have hw1 := isocal_week_bounds (dayOfTs (rollForwardMonday mn + 604800 * k))
  have hw2 := isocal_week_bounds (dayOfTs (rollForwardMonday mn + 604800 * k'))
  show pyLt
    (isoLabel (isocal (dayOfTs (rollForwardMonday mn + 604800 * k))).1
      (isocal (dayOfTs (rollForwardMonday mn + 604800 * k))).2)
    (isoLabel (isocal (dayOfTs (rollForwardMonday mn + 604800 * k'))).1
      (isocal (dayOfTs (rollForwardMonday mn + 604800 * k'))).2)
  refine isoLabel_lt ?_ ?_ ?_ ?_ ?_ ?_ ?_
  · have := hydown k; omega
  · have := hyup k hk; omega
  · have := hydown k'; omega
  · have := hyup k' hk'; omega
  · omega
  · omega
  · exact lexLT_genLabels mn k k' h

theorem uniqueWeeks_eq_dateRange {rows : List Row} {mn mx : Nat} {ws : List String}
    (hmn : minOpened rows = some mn) (hmx : maxOpened rows = some mx)
    (hws : uniqueWeeksM rows = some ws) (hbound : dayOfTs mx + 3 < Y0 10000) :
    ws = (dateRangeWMON mn mx).map tsWeekLabel := by
  have hall : allWeekLabelsM rows = some ((dateRangeWMON mn mx).map tsWeekLabel) := by
    unfold allWeekLabelsM
    rw [hmn, hmx]
  have hws' : ws = sortedStrings ((dateRangeWMON mn mx).map tsWeekLabel).dedup := by
    unfold uniqueWeeksM at hws
    rw [hall] at hws
    exact (Option.some.inj hws).symm
  have hpw : List.Pairwise pyLt ((dateRangeWMON mn mx).map tsWeekLabel) := by
    unfold dateRangeWMON
    split
    · rename_i hle
      unfold wmonRange
      rw [List.map_map, List.pairwise_map]
      refine (List.pairwise_lt_range _).imp_of_mem ?_
      intro i j hi hj hij
      rw [List.mem_range] at hi hj
      exact pyLt_genLabels mn mx i j hij (by omega) hbound
    · exact List.Pairwise.nil
  have hsorted : List.Sorted pyLe ((dateRangeWMON mn mx).map tsWeekLabel) :=
    hpw.imp pyLe_of_pyLt
  have hnodup : ((dateRangeWMON mn mx).map tsWeekLabel).Nodup :=
    hpw.imp (fun h1 => by intro he; subst he; exact pyLt_irrefl _ h1)
  rw [hws']
  unfold sortedStrings
  rw [List.dedup_eq_self.mpr hnodup]
  exact List.eq_of_perm_of_sorted (List.perm_insertionSort pyLe _)
    (List.sorted_insertionSort pyLe _) hsorted

/-! ## Claim theorems: calendar span (C1) -/

/-- C1, corrected: the computed week axis is the strictly increasing,
    gap-free sequence of ISO WeekKeys of the stamps produced by rolling
    the minimum opened_at FORWARD to the next Monday (keeping its clock
    time) and stepping by 7 days while not exceeding the maximum: it
    begins at the week containing that first on-or-after Monday, NOT at
    the week containing the minimum (those differ whenever the minimum is
    not itself a Monday), and it is listed in label order, which matches
    chronology for four-digit ISO years. -/
theorem C1_axis_correct (raw : List RawRecord) (mn mx : Nat) (ws : List String)
    (hmn : minOpened (normalizeRecords raw) = some mn)
    (hmx : maxOpened (normalizeRecords raw) = some mx)
    (hws : uniqueWeeksM (normalizeRecords raw) = some ws)
    (hbound : dayOfTs mx + 3 < Y0 10000) :
    ws = (dateRangeWMON mn mx).map tsWeekLabel
    ∧ List.Chain' (fun a b => weekToDate b = weekToDate a + 7) ws
    ∧ List.Pairwise (fun a b => lexLT (parseLabel a) (parseLabel b)) ws
    ∧ (∀ s, s ∈ ws ↔ ∃ k, rollForwardMonday mn + 604800 * k ≤ mx ∧
        s = tsWeekLabel (rollForwardMonday mn + 604800 * k))
    ∧ ws.head? = (if rollForwardMonday mn ≤ mx
        then some (tsWeekLabel (rollForwardMonday mn)) else none) := by
  have heq := uniqueWeeks_eq_dateRange hmn hmx hws hbound
  refine ⟨heq, ?_, ?_, ?_, ?_⟩
  · rw [heq]
    unfold dateRangeWMON
    split
    · rename_i hle
      unfold wmonRange
      rw [List.map_map, List.chain'_map, List.chain'_range_succ]
      intro m _
      show weekToDate (tsWeekLabel (rollForwardMonday mn + 604800 * (m + 1))) =
        weekToDate (tsWeekLabel (rollForwardMonday mn + 604800 * m)) + 7
      rw [weekToDate_genLabel _ (wdAbs_gen mn (m + 1)),
        weekToDate_genLabel _ (wdAbs_gen mn m),
        dayOfTs_add_weeks, dayOfTs_add_weeks]
      omega
    · exact List.chain'_nil
  · rw [heq]
    unfold dateRangeWMON
    split
    · unfold wmonRange
      rw [List.map_map, List.pairwise_map]
      refine (List.pairwise_lt_range _).imp_of_mem ?_
      intro i j _ _ hij
      show lexLT (parseLabel (tsWeekLabel (rollForwardMonday mn + 604800 * i)))
        (parseLabel (tsWeekLabel (rollForwardMonday mn + 604800 * j)))
      rw [parseLabel_genLabel, parseLabel_genLabel]
      exact lexLT_genLabels mn i j hij
    · exact List.Pairwise.nil
  · intro s
    rw [heq]
    exact mem_dateRange_labels mn mx s
  · rw [heq]
    unfold dateRangeWMON
    split
    · rename_i hle
      unfold wmonRange
      rw [List.range_succ_eq_map]
      show some (tsWeekLabel (rollForwardMonday mn + 604800 * 0)) =
        some (tsWeekLabel (rollForwardMonday mn))
      have he0 : rollForwardMonday mn + 604800 * 0 = rollForwardMonday mn := by omega
      rw [he0]
    · rfl

set_option maxHeartbeats 8000000 in
/-- Witness for C1: the spec section 8 scenario. -/
theorem C1_axis_correct_witness :
    minOpened (normalizeRecords specRaw) = some (tsOfDate 2024 1 3)
    ∧ maxOpened (normalizeRecords specRaw) = some (tsOfDate 2024 1 17)
    ∧ uniqueWeeksM (normalizeRecords specRaw) = some ["2024-W02", "2024-W03"]
    ∧ dayOfTs (tsOfDate 2024 1 17) + 3 < Y0 10000
    ∧ (["2024-W02", "2024-W03"] : List String) =
        (dateRangeWMON (tsOfDate 2024 1 3) (tsOfDate 2024 1 17)).map tsWeekLabel :=
  ⟨by decide, by decide, by decide, by decide,
    (C1_axis_correct specRaw (tsOfDate 2024 1 3) (tsOfDate 2024 1 17)
      ["2024-W02", "2024-W03"] (by decide) (by decide) (by decide) (by decide)).1⟩

set_option maxHeartbeats 4000000 in
/-- Counterexample to C1 as stated: in the spec scenario the minimum
    opened_at 2024-01-03 lies in ISO week 2024-W01, but the computed axis
    is [2024-W02, 2024-W03]: the week containing the minimum is missing,
    because date_range with freq W-MON rolls the start forward to Monday
    2024-01-08. -/
theorem C1_counterexample :
    minOpened (normalizeRecords specRaw) = some (tsOfDate 2024 1 3)
    ∧ tsWeekLabel (tsOfDate 2024 1 3) = "2024-W01"
    ∧ uniqueWeeksM (normalizeRecords specRaw) = some ["2024-W02", "2024-W03"]
    ∧ "2024-W01" ∉ (["2024-W02", "2024-W03"] : List String) :=
  ⟨by decide, by decide, by decide, by decide⟩

/-! ## Claim theorems: chronological series order (C5) -/

theorem mem_updateChart_shape {rows : List Row} {ws ps : List String} {sel : Option String}
    {c : Cell} (hc : c ∈ updateChart rows ws ps sel) :
    c.week_label ∈ ws ∧ c.week_sort = weekToDate c.week_label := by
  unfold updateChart at hc
  have hc' := (List.mem_insertionSort cellLE).mp hc
  rcases List.mem_map.mp hc' with ⟨wp, hwp, he⟩
  have hm : (wp.1, wp.2) ∈ fullIndex ws ps := by
    rw [Prod.mk.eta]
    exact hwp
  have h1 := (mem_fullIndex ws ps wp.1 wp.2).mp hm
  rw [← he]
  exact ⟨h1.1, rfl⟩

theorem nodup_pairs_updateChart {rows : List Row} {ws ps : List String} {sel : Option String}
    (hws : ws.Nodup) (hps : ps.Nodup) :
    ((updateChart rows ws ps sel).map (fun c => (c.week_label, c.assigned_to))).Nodup := by
  unfold updateChart
  have hperm := List.perm_insertionSort cellLE
    ((fullIndex ws ps).map (fun wp =>
      (⟨wp.1, wp.2, countIn (applyFilter rows sel) wp.1 wp.2, weekToDate wp.1⟩ : Cell)))
  have hpairs : ((fullIndex ws ps).map (fun wp =>
      (⟨wp.1, wp.2, countIn (applyFilter rows sel) wp.1 wp.2, weekToDate wp.1⟩ : Cell))).map
        (fun c => (c.week_label, c.assigned_to)) = fullIndex ws ps := by
    rw [List.map_map]
    have hid : ∀ wp ∈ fullIndex ws ps,
        ((fun (c : Cell) => (c.week_label, c.assigned_to)) ∘ (fun wp =>
          (⟨wp.1, wp.2, countIn (applyFilter rows sel) wp.1 wp.2, weekToDate wp.1⟩ : Cell))) wp =
          id wp := by
      intro wp _
      show (wp.1, wp.2) = wp
      exact Prod.mk.eta
    rw [List.map_congr_left hid, List.map_id]
  have hp2 := hperm.map (fun c => (c.week_label, c.assigned_to))
  rw [hpairs] at hp2
  exact hp2.symm.nodup (nodup_fullIndex _ _ hws hps)

/-- C5, confirmed: within each assignee's output series the week keys are
    strictly increasing in true calendar chronology — lexicographically on
    the (isoYear, isoWeek) pair recovered from the label — including
    across year boundaries, because the series is ordered by the week_sort
    column, the real Monday date parsed back from each label. -/
theorem C5_chronological (raw : List RawRecord) (sel : Option String) (tbl : List Cell)
    (p : String) (htbl : pipeline raw sel = some tbl) :
    List.Pairwise (fun a b => lexLT (parseLabel a.week_label) (parseLabel b.week_label))
      (personSeries tbl p) := by
  rcases pipeline_some.mp htbl with ⟨ws, hws, he⟩
  have hls : ∃ ls, allWeekLabelsM (normalizeRecords raw) = some ls ∧
      ws = sortedStrings ls.dedup := by
    unfold uniqueWeeksM at hws
    rcases Option.map_eq_some'.mp hws with ⟨ls, h1, h2⟩
    exact ⟨ls, h1, h2.symm⟩
  rcases hls with ⟨ls, hlsome, _⟩
  rcases allWeekLabelsM_inv hlsome with ⟨mn, mx, hmn, hmx, hlseq⟩
  have hmem : ∀ ℓ ∈ ws, ∃ k, ℓ = tsWeekLabel (rollForwardMonday mn + 604800 * k) := by
    intro ℓ hℓ
    rcases (mem_uniqueWeeks_iff hws).mp hℓ with ⟨ls', hls', hm⟩
    rw [hlsome] at hls'
    cases hls'
    rw [hlseq] at hm
    rcases (mem_dateRange_labels mn mx ℓ).mp hm with ⟨k, _, he2⟩
    exact ⟨k, he2⟩
  subst he
  have hsorted : List.Pairwise cellLE
      (updateChart (normalizeRecords raw) ws (uniquePeople (normalizeRecords raw)) sel) := by
    unfold updateChart
    exact List.sorted_insertionSort cellLE _
  have hnodup : ((updateChart (normalizeRecords raw) ws (uniquePeople (normalizeRecords raw))
      sel).map (fun c => (c.week_label, c.assigned_to))).Nodup :=
    nodup_pairs_updateChart (nodup_uniqueWeeks hws) (nodup_uniquePeople (normalizeRecords raw))
  have hpairNe : List.Pairwise (fun a b : Cell =>
      (a.week_label, a.assigned_to) ≠ (b.week_label, b.assigned_to))
      (updateChart (normalizeRecords raw) ws (uniquePeople (normalizeRecords raw)) sel) :=
    List.pairwise_map.mp hnodup
  have hboth := hsorted.and hpairNe
  have hflt : List.Pairwise (fun a b =>
      cellLE a b ∧ (a.week_label, a.assigned_to) ≠ (b.week_label, b.assigned_to))
      ((updateChart (normalizeRecords raw) ws (uniquePeople (normalizeRecords raw)) sel).filter
        (fun c => c.assigned_to == p)) :=
    List.Pairwise.sublist (List.filter_sublist _) hboth
  unfold personSeries
  refine List.Pairwise.imp_of_mem ?_ hflt
  intro a b ha hb hab
  rcases hab with ⟨hle, hne⟩
  have hpa : a.assigned_to = p := by
    have := (List.mem_filter.mp ha).2
    rwa [beq_iff_eq] at this
  have hpb : b.assigned_to = p := by
    have := (List.mem_filter.mp hb).2
    rwa [beq_iff_eq] at this
  have hsa := mem_updateChart_shape (List.mem_of_mem_filter ha)
  have hsb := mem_updateChart_shape (List.mem_of_mem_filter hb)
  rcases hmem _ hsa.1 with ⟨ka, hka⟩
  rcases hmem _ hsb.1 with ⟨kb, hkb⟩
  have hwa : a.week_sort = dayOfTs (rollForwardMonday mn + 604800 * ka) := by
    rw [hsa.2, hka, weekToDate_genLabel _ (wdAbs_gen mn ka)]
  have hwb : b.week_sort = dayOfTs (rollForwardMonday mn + 604800 * kb) := by
    rw [hsb.2, hkb, weekToDate_genLabel _ (wdAbs_gen mn kb)]
  have hlne : a.week_label ≠ b.week_label := by
    intro hcon
    exact hne (by rw [hcon, hpa, hpb])
  have hkne : ka ≠ kb := by
    intro hcon
    exact hlne (by rw [hka, hkb, hcon])
  have hlt : a.week_sort < b.week_sort := by
    rcases hle with h | ⟨h, _⟩
    · exact h
    · exfalso
      rw [hwa, hwb, dayOfTs_add_weeks, dayOfTs_add_weeks] at h
      exact hkne (by omega)
  have hklt : ka < kb := by
    rw [hwa, hwb, dayOfTs_add_weeks, dayOfTs_add_weeks] at hlt
    omega
  rw [hka, hkb, parseLabel_genLabel, parseLabel_genLabel]
  exact lexLT_genLabels mn ka kb hklt

set_option maxHeartbeats 8000000 in
/-- Witness for C5: one assignee with records on Mondays across the
    2024/2025 year boundary; the series runs 2024-W52, 2025-W01,
    2025-W02 strictly increasing. -/
theorem C5_chronological_witness :
    pipeline yearBoundaryRaw none =
      some [⟨"2024-W52", "A", 1, 739608⟩, ⟨"2025-W01", "A", 0, 739615⟩,
        ⟨"2025-W02", "A", 1, 739622⟩]
    ∧ List.Pairwise (fun a b : Cell => lexLT (parseLabel a.week_label) (parseLabel b.week_label))
        (personSeries [⟨"2024-W52", "A", 1, 739608⟩, ⟨"2025-W01", "A", 0, 739615⟩,
          ⟨"2025-W02", "A", 1, 739622⟩] "A") :=
  ⟨by decide,
    C5_chronological yearBoundaryRaw none
      [⟨"2024-W52", "A", 1, 739608⟩, ⟨"2025-W01", "A", 0, 739615⟩,
        ⟨"2025-W02", "A", 1, 739622⟩] "A" (by decide)⟩
